import Mathlib

/-
Verification of the generic set container in pkg/util/sets/generic.go.

The Go type `Set[T comparable] map[T]struct{}` is a finite collection of
distinct keys of a type with decidable equality; we embed it as
`Finset T` with `[DecidableEq T]`.  Each Go method is translated to a
Lean function below; a loop `for k := range m` over the key set of a map,
whose body is order-insensitive, is translated to the corresponding
Finset operation (filter, union, ...), since such a loop visits each key
exactly once and its result does not depend on the iteration order.
-/

namespace sets

variable {T : Type} [DecidableEq T]

/-- Go `Insert(keys ...T)`: `for _, k := range keys { s[k] = struct{}{} }`.
The receiver is mutated in place; we return the new value of the receiver. -/
def Insert (s : Finset T) (keys : List T) : Finset T :=
  keys.foldl (fun acc k => insert k acc) s

/-- Go `Delete(keys ...T)`: `for _, k := range keys { delete(s, k) }`. -/
def Delete (s : Finset T) (keys : List T) : Finset T :=
  keys.foldl (fun acc k => acc.erase k) s

/-- Go `Has(k T) bool`: `_, ok := s[k]; return ok`. -/
def Has (s : Finset T) (k : T) : Bool :=
  decide (k ∈ s)

/-- Go `HasAll(keys ...T) bool`: false as soon as one key is missing. -/
def HasAll (s : Finset T) (keys : List T) : Bool :=
  keys.all (fun k => Has s k)

/-- Go `HasAny(items ...T) bool`: true as soon as one item is present. -/
def HasAny (s : Finset T) (items : List T) : Bool :=
  items.any (fun item => Has s item)

/-- Go `IsSuperset(s2 Set[T]) bool`:
`for item := range s2 { if !s.Has(item) { return false } }; return true`,
i.e. every key of `s2` is a key of `s`. -/
def IsSuperset (s s2 : Finset T) : Bool :=
  decide (∀ item ∈ s2, Has s item = true)

/-- Go `Len() int`: `return len(s)`, the number of keys of the map. -/
def Len (s : Finset T) : Nat :=
  s.card

/-- Go `Equal(s2 Set[T]) bool`: `return len(s) == len(s2) && s.IsSuperset(s2)`. -/
def Equal (s s2 : Finset T) : Bool :=
  Len s == Len s2 && IsSuperset s s2

/-- Go `New[T comparable](keys ...T) Set[T]`: start from the empty map and
insert every key. -/
def New (keys : List T) : Finset T :=
  Insert ∅ keys

/-- Go `Difference(s2 Set[T]) Set[T]`: a fresh result receiving every key of
`s` for which `!s2.Has(key)`. -/
def Difference (s s2 : Finset T) : Finset T :=
  s.filter (fun key => Has s2 key = false)

/-- Go `Union(s2 Set[T]) Set[T]`: a fresh result receiving every key of `s`
and then every key of `s2`. -/
def Union (s s2 : Finset T) : Finset T :=
  s ∪ s2

/-- Go `Intersection(s2 Set[T]) Set[T]`: the operand of smaller `Len` is
walked (ties walk `s2`, the `else` branch) and the other operand is probed
with `Has`; a fresh result receives the keys found in both. -/
def Intersection (s s2 : Finset T) : Finset T :=
  if Len s < Len s2 then s.filter (fun key => Has s2 key = true)
  else s2.filter (fun key => Has s key = true)

/-- Go `List() []T` for an element kind with a natural order (signed or
unsigned integers, strings, ...): all keys are collected and sorted
ascending by the kind's order (`sort.Slice(res, less)`). -/
def List' {T : Type} [LinearOrder T] (s : Finset T) : List T :=
  s.sort (· ≤ ·)

/-- Naive intersection, written from the specification's words: the set of
all `x` with `x` in `a` and `x` in `b`, obtained by iterating `a` and
probing `b`. -/
def intersectionNaive (a b : Finset T) : Finset T :=
  a.filter (fun x => Has b x = true)

/-! Shared lemmas about the embedded operations. -/

theorem Has_eq_true_iff (s : Finset T) (k : T) : Has s k = true ↔ k ∈ s := by
  simp [Has]

theorem IsSuperset_eq_true_iff (s s2 : Finset T) :
    IsSuperset s s2 = true ↔ s2 ⊆ s := by
  simp [IsSuperset, Has, Finset.subset_iff]

theorem Equal_eq_true_iff (s s2 : Finset T) : Equal s s2 = true ↔ s = s2 := by
  constructor
  · intro h
    simp only [Equal, Bool.and_eq_true, beq_iff_eq] at h
    obtain ⟨hcard, hsup⟩ := h
    have hsub : s2 ⊆ s := (IsSuperset_eq_true_iff s s2).mp hsup
    exact (Finset.eq_of_subset_of_card_le hsub (le_of_eq hcard)).symm
  · intro h
    subst h
    simp [Equal, IsSuperset, Has]

theorem Difference_eq_sdiff (s s2 : Finset T) : Difference s s2 = s \ s2 := by
  ext x
  simp [Difference, Has, Finset.mem_sdiff]

theorem Intersection_eq_inter (s s2 : Finset T) : Intersection s s2 = s ∩ s2 := by
  unfold Intersection
  split_ifs with h
  · ext x
    simp [Has, Finset.mem_inter]
  · ext x
    simp [Has, Finset.mem_inter]
    tauto

/-! Heap model for allocation and aliasing.

A Go `Set[T]` value is a reference to a mutable map.  We model the store of
live maps as a function from addresses to key sets together with a
fresh-address counter; an operation that executes `result := New[T]()` and
fills `result` allocates at the next fresh address. -/

structure Heap (T : Type) where
  store : Nat → Finset T
  next : Nat

/-- Allocation of a fresh map holding the keys `x`: the result address is
`h.next`, which no live reference (address `< h.next`) equals. -/
def alloc (h : Heap T) (x : Finset T) : Heap T × Nat :=
  (⟨fun i => if i = h.next then x else h.store i, h.next + 1⟩, h.next)

/-- In-place `Insert` through a reference: only the map at `addr` changes. -/
def insertAt (h : Heap T) (addr : Nat) (keys : List T) : Heap T :=
  ⟨fun i => if i = addr then Insert (h.store i) keys else h.store i, h.next⟩

/-- The frame property of one binary operation `op` run at the heap level on
the operand references `a` and `b`: both operands keep their membership and
cardinality, the result lives at a fresh address holding `op`'s value, and
inserting through the result reference never changes an operand (nor the
other way round). -/
def FreshResult (op : Finset T → Finset T → Finset T) (h : Heap T)
    (a b : Nat) : Prop :=
  (alloc h (op (h.store a) (h.store b))).1.store a = h.store a ∧
  (alloc h (op (h.store a) (h.store b))).1.store b = h.store b ∧
  (alloc h (op (h.store a) (h.store b))).2 ≠ a ∧
  (alloc h (op (h.store a) (h.store b))).2 ≠ b ∧
  (alloc h (op (h.store a) (h.store b))).1.store
      (alloc h (op (h.store a) (h.store b))).2 = op (h.store a) (h.store b) ∧
  (∀ keys,
    (insertAt (alloc h (op (h.store a) (h.store b))).1
        (alloc h (op (h.store a) (h.store b))).2 keys).store a = h.store a ∧
    (insertAt (alloc h (op (h.store a) (h.store b))).1
        (alloc h (op (h.store a) (h.store b))).2 keys).store b = h.store b) ∧
  (∀ keys,
    (insertAt (alloc h (op (h.store a) (h.store b))).1 a keys).store
        (alloc h (op (h.store a) (h.store b))).2 = op (h.store a) (h.store b))

theorem freshResult_of_lt (op : Finset T → Finset T → Finset T) (h : Heap T)
    (a b : Nat) (ha : a < h.next) (hb : b < h.next) : FreshResult op h a b := by
  have ha' : a ≠ h.next := Nat.ne_of_lt ha
  have hb' : b ≠ h.next := Nat.ne_of_lt hb
  have hna : h.next ≠ a := fun hc => ha' hc.symm
  have hnb : h.next ≠ b := fun hc => hb' hc.symm
  refine ⟨?_, ?_, ?_, ?_, ?_, ?_, ?_⟩
  · simp [alloc, ha']
  · simp [alloc, hb']
  · exact hna
  · exact hnb
  · simp [alloc]
  · intro keys
    constructor
    · simp [alloc, insertAt, ha']
    · simp [alloc, insertAt, hb']
  · intro keys
    simp [alloc, insertAt, ha', hna]

/-! Claim theorems. -/

/-- C1: `Equal(a, b)` returns true iff `a` and `b` have identical
membership, and the implemented two-part check is valid: equal cardinality
together with `a.IsSuperset(b)` implies `b.IsSuperset(a)`. -/
theorem C1_equal_iff_identical_membership (a b : Finset T) :
    (Equal a b = true ↔ ∀ x, x ∈ a ↔ x ∈ b) ∧
    (Len a = Len b ∧ IsSuperset a b = true → IsSuperset b a = true) := by
  constructor
  · rw [Equal_eq_true_iff]
    exact Finset.ext_iff
  · rintro ⟨hlen, hsup⟩
    rw [IsSuperset_eq_true_iff] at hsup ⊢
    have hba : b = a := Finset.eq_of_subset_of_card_le hsup (le_of_eq hlen)
    exact hba ▸ Finset.Subset.refl b

/-- C2: on an element type carrying the natural linear order of one of the
orderable kinds (signed integers, unsigned integers, strings, ordered
floating-point values), `List()` returns a strictly ascending sequence that
contains every member exactly once. -/
theorem C2_list_strictly_ascending {T : Type} [LinearOrder T] (s : Finset T) :
    List.Sorted (· < ·) (List' s) ∧ (List' s).Nodup ∧
      ∀ x, x ∈ List' s ↔ x ∈ s :=
  ⟨Finset.sort_sorted_lt s, Finset.sort_nodup _ s, fun _ => Finset.mem_sort _⟩

/-- C3: for all `a`, `b`,
`a.Difference(b).Len() + b.Intersection(a).Len() == a.Len()`. -/
theorem C3_difference_intersection_partition (a b : Finset T) :
    Len (Difference a b) + Len (Intersection b a) = Len a := by
  simp only [Len, Difference_eq_sdiff, Intersection_eq_inter]
  rw [Finset.inter_comm b a]
  exact Finset.card_sdiff_add_card_inter a b

/-- C4: `Union` returns the elements in either operand, and is commutative,
associative and idempotent up to `Equal`. -/
theorem C4_union_properties (a b c : Finset T) :
    (∀ x, x ∈ Union a b ↔ x ∈ a ∨ x ∈ b) ∧
    Equal (Union a b) (Union b a) = true ∧
    Equal (Union (Union a b) c) (Union a (Union b c)) = true ∧
    Equal (Union a a) a = true := by
  refine ⟨fun x => Finset.mem_union, ?_, ?_, ?_⟩ <;> rw [Equal_eq_true_iff]
  · exact Finset.union_comm a b
  · exact Finset.union_assoc a b c
  · exact Finset.union_self a

/-- C5: `Intersection` returns the elements in both operands, and is
commutative, associative and idempotent up to `Equal`. -/
theorem C5_intersection_properties (a b c : Finset T) :
    (∀ x, x ∈ Intersection a b ↔ x ∈ a ∧ x ∈ b) ∧
    Equal (Intersection a b) (Intersection b a) = true ∧
    Equal (Intersection (Intersection a b) c)
      (Intersection a (Intersection b c)) = true ∧
    Equal (Intersection a a) a = true := by
  simp only [Intersection_eq_inter, Equal_eq_true_iff]
  refine ⟨fun x => Finset.mem_inter, ?_, ?_, ?_⟩
  · exact Finset.inter_comm a b
  · exact Finset.inter_assoc a b c
  · exact Finset.inter_self a

/-- C6: every set is a superset of the empty set, the empty set is a
superset exactly of the empty set, and `IsSuperset(a, b)` holds iff every
member of `b` is a member of `a`. -/
theorem C6_superset_characterisation (a b : Finset T) :
    IsSuperset a (New ([] : List T)) = true ∧
    (IsSuperset (New ([] : List T)) a = true ↔ a = ∅) ∧
    (IsSuperset a b = true ↔ ∀ x ∈ b, x ∈ a) := by
  have hnew : New ([] : List T) = ∅ := rfl
  refine ⟨?_, ?_, ?_⟩
  · rw [IsSuperset_eq_true_iff, hnew]
    exact Finset.empty_subset a
  · rw [IsSuperset_eq_true_iff, hnew]
    exact Finset.subset_empty
  · rw [IsSuperset_eq_true_iff]
    exact Finset.subset_iff

/-- C7: run at the heap level, `Union`, `Intersection` and `Difference`
leave both operand maps unchanged and return a freshly allocated map, so
that mutating the result does not change an operand and mutating an operand
does not change the result. -/
theorem C7_fresh_allocation (h : Heap T) (a b : Nat)
    (ha : a < h.next) (hb : b < h.next) :
    FreshResult Union h a b ∧ FreshResult Intersection h a b ∧
      FreshResult Difference h a b :=
  ⟨freshResult_of_lt Union h a b ha hb,
    freshResult_of_lt Intersection h a b ha hb,
    freshResult_of_lt Difference h a b ha hb⟩

/-- Witness for C7 at the concrete heap with one live empty map. -/
theorem C7_fresh_allocation_witness :
    0 < (Heap.mk (fun _ => (∅ : Finset Nat)) 1).next ∧
    (FreshResult Union (Heap.mk (fun _ => (∅ : Finset Nat)) 1) 0 0 ∧
      FreshResult Intersection (Heap.mk (fun _ => (∅ : Finset Nat)) 1) 0 0 ∧
      FreshResult Difference (Heap.mk (fun _ => (∅ : Finset Nat)) 1) 0 0) :=
  ⟨Nat.zero_lt_one,
    C7_fresh_allocation (Heap.mk (fun _ => (∅ : Finset Nat)) 1) 0 0
      Nat.zero_lt_one Nat.zero_lt_one⟩

/-- C8: deleting a non-member leaves cardinality and all membership
unchanged, and inserting an existing member leaves cardinality and all
membership unchanged. -/
theorem C8_noop_mutations (s : Finset T) (x : T) :
    (Has s x = false →
      Len (Delete s [x]) = Len s ∧ ∀ y, Has (Delete s [x]) y = Has s y) ∧
    (Has s x = true →
      Len (Insert s [x]) = Len s ∧ ∀ y, Has (Insert s [x]) y = Has s y) := by
  constructor
  · intro hx
    have hx' : x ∉ s := by simpa [Has] using hx
    have hD : Delete s [x] = s := by
      simp [Delete, Finset.erase_eq_of_not_mem hx']
    rw [hD]
    exact ⟨rfl, fun y => rfl⟩
  · intro hx
    have hx' : x ∈ s := by simpa [Has] using hx
    have hI : Insert s [x] = s := by
      simp [Insert, Finset.insert_eq_self.mpr hx']
    rw [hI]
    exact ⟨rfl, fun y => rfl⟩

/-- C9: the cardinality branch of `Intersection` is result-irrelevant:
walking `a` while probing `b` equals walking `b` while probing `a`, and the
optimized implementation equals the naive definition in every case. -/
theorem C9_intersection_branch_irrelevant (a b : Finset T) :
    a.filter (fun x => Has b x = true) = b.filter (fun x => Has a x = true) ∧
    Intersection a b = intersectionNaive a b ∧
    ∀ x, x ∈ Intersection a b ↔ x ∈ a ∧ x ∈ b := by
  refine ⟨?_, ?_, ?_⟩
  · ext x
    simp only [Finset.mem_filter, Has, decide_eq_true_eq]
    tauto
  · rw [Intersection_eq_inter]
    ext x
    simp [intersectionNaive, Has, Finset.mem_inter]
  · intro x
    rw [Intersection_eq_inter]
    exact Finset.mem_inter

/-- C10: `Equal` is symmetric: `a.Equal(b)` returns the same boolean as
`b.Equal(a)`. -/
theorem C10_equal_symmetric (a b : Finset T) : Equal a b = Equal b a := by
  by_cases h : a = b
  · subst h
    rfl
  · have h1 : Equal a b = false :=
      Bool.eq_false_iff.mpr fun hc => h ((Equal_eq_true_iff a b).mp hc)
    have h2 : Equal b a = false :=
      Bool.eq_false_iff.mpr fun hc => h ((Equal_eq_true_iff b a).mp hc).symm
    rw [h1, h2]

end sets
